import Mathlib

/- Verification development for the QuadSplit batch quadrant-extraction
   pipeline (src/App.tsx, src/types.ts).  The pipeline is embedded shallowly:
   React state becomes an explicit state record, the per-image loop becomes a
   fold, the awaited splitter call becomes an Option-valued field of the input
   (none models a thrown decode error), and the ambient JSZip archive library
   becomes a list of folder/file entries with last-write-wins path semantics. -/

/-- Run status of a batch (src/types.ts, ProcessingStatus). -/
inductive ProcessingStatus where
  | IDLE
  | PROCESSING
  | COMPLETED
  | ERROR
  deriving Repr, DecidableEq

/-- One processed image: generated id, display name, four quadrant data URLs
(src/types.ts, ProcessedImage). -/
structure ProcessedImage where
  id : String
  originalName : String
  quadrants : List String
  deriving Repr, DecidableEq

/-- An input file as the batch loop sees it: its filename together with the
outcome of awaiting splitImageIntoFour on it.  The splitter lives in
src/utils/imageHelpers (absent from the snapshot); none models the call
throwing (decode failure), some qs models it resolving with the quadrant
data URLs. -/
structure InputFile where
  name : String
  splitResult : Option (List String)
  deriving Repr, DecidableEq

/-- The React state of the App component that the pipeline touches:
the selected files, the processed results, the run status and the
progress counter (src/App.tsx, the four useState hooks). -/
structure AppState where
  files : List InputFile
  processed : List ProcessedImage
  status : ProcessingStatus
  progress : Nat
  deriving Repr, DecidableEq

/-- An axis-aligned crop rectangle: origin (x, y), width w, height h. -/
structure Rect where
  x : Nat
  y : Nat
  w : Nat
  h : Nat
  deriving Repr, DecidableEq

/-- Modelled from the spec: splitImageIntoFour (src/utils/imageHelpers, not in
the snapshot) crops a W by H image into four rectangles, in row-major order
top-left, top-right, bottom-left, bottom-right, with hw = floor(W/2) and
hh = floor(H/2); the right and bottom crops absorb any odd leftover pixel
(spec section 4.1).  Nat division is floor division. -/
def splitImageIntoFour (W H : Nat) : List Rect :=
  [⟨0, 0, W / 2, H / 2⟩,
   ⟨W / 2, 0, W - W / 2, H / 2⟩,
   ⟨0, H / 2, W / 2, H - H / 2⟩,
   ⟨W / 2, H / 2, W - W / 2, H - H / 2⟩]

/-- Pixel (px, py) lies inside rectangle r. -/
def inRect (r : Rect) (px py : Nat) : Prop :=
  r.x ≤ px ∧ px < r.x + r.w ∧ r.y ≤ py ∧ py < r.y + r.h

instance (r : Rect) (px py : Nat) : Decidable (inRect r px py) := by
  unfold inRect; infer_instance

/-- Row-major index (0..3) of the quadrant a pixel of a W by H image falls in. -/
def quadIndex (W H px py : Nat) : Nat :=
  (if px < W / 2 then 0 else 1) + (if py < H / 2 then 0 else 2)

/-- JavaScript Math.round(num/den) for nonnegative arguments: round half up. -/
def jsRound (num den : Nat) : Nat :=
  (2 * num + den) / (2 * den)

/-- Progress value the loop writes after attempt i+1 of N:
Math.round(((i + 1) / files.length) * 100) in src/App.tsx line 71. -/
def progressOf (completed N : Nat) : Nat :=
  jsRound (100 * completed) N

/-- Display name of a file: file.name.split('.')[0] in src/App.tsx line 68.
The first element of a split at '.' is the maximal prefix of the name that
holds no '.' (the whole name when it has no dot, empty for a leading dot). -/
def stripName (name : String) : String :=
  String.mk (name.data.takeWhile (fun c => c != '.'))

/-- Spec-side reading for comparison: the filename minus its final extension,
that is everything before the last dot, or the name itself when it has no
dot. -/
def dropLastExt (name : String) : String :=
  if name.data.contains '.' then
    String.mk (((name.data.reverse.dropWhile (fun c => c != '.')).drop 1).reverse)
  else name

/-- Accumulator of the for-loop in processImages (src/App.tsx lines 62-75):
loop index i, number of Math.random() draws made, the local results array,
and the React state as it stands mid-loop. -/
structure LoopAcc where
  idx : Nat
  draws : Nat
  results : List ProcessedImage
  st : AppState
  deriving Repr, DecidableEq

/-- One iteration of the processImages loop.  On success it pushes a result
with a fresh id drawn from idStream (modelling Math.random().toString(36)
.substr(2, 9)) and sets progress; on a thrown error it only logs and moves
on, leaving results and progress untouched. -/
def loopStep (N : Nat) (idStream : Nat → String) (f : InputFile) (a : LoopAcc) :
    LoopAcc :=
  match f.splitResult with
  | some qs =>
      ⟨a.idx + 1, a.draws + 1,
        a.results ++ [⟨idStream a.draws, stripName f.name, qs⟩],
        ⟨a.st.files, a.st.processed, a.st.status, progressOf (a.idx + 1) N⟩⟩
  | none => ⟨a.idx + 1, a.draws, a.results, a.st⟩

/-- The whole loop, as a fold of loopStep over the file list. -/
def runAll (N : Nat) (idStream : Nat → String) (files : List InputFile)
    (a : LoopAcc) : LoopAcc :=
  files.foldl (fun acc f => loopStep N idStream f acc) a

/-- The processImages handler (src/App.tsx lines 53-79).  An empty file list
returns immediately; otherwise status becomes PROCESSING, processed and
progress are reset, the loop runs, and finally processed receives the results
array and status becomes COMPLETED. -/
def processImages (st : AppState) (idStream : Nat → String) : AppState :=
  if st.files.length = 0 then st
  else
    let a0 : LoopAcc := ⟨0, 0, [], ⟨st.files, [], ProcessingStatus.PROCESSING, 0⟩⟩
    let aFin := runAll st.files.length idStream st.files a0
    ⟨aFin.st.files, aFin.results, ProcessingStatus.COMPLETED, aFin.st.progress⟩

/-- Accumulator states after each iteration of the loop, in order. -/
def loopTrace (N : Nat) (idStream : Nat → String) :
    List InputFile → LoopAcc → List LoopAcc
  | [], _ => []
  | f :: rest, a =>
    let a2 := loopStep N idStream f a
    a2 :: loopTrace N idStream rest a2

/-- The sequence of React states a run of processImages writes, in order:
the state after the initial setStatus/setProcessed/setProgress writes, the
state after each loop iteration, and the final state after setProcessed and
setStatus(COMPLETED).  Empty input writes nothing. -/
def processImagesTrace (st : AppState) (idStream : Nat → String) :
    List AppState :=
  if st.files.length = 0 then []
  else
    let st1 : AppState := ⟨st.files, [], ProcessingStatus.PROCESSING, 0⟩
    let a0 : LoopAcc := ⟨0, 0, [], st1⟩
    let accs := loopTrace st.files.length idStream st.files a0
    let aFin := accs.getLastD a0
    st1 :: accs.map (fun a => a.st) ++
      [⟨aFin.st.files, aFin.results, ProcessingStatus.COMPLETED, aFin.st.progress⟩]

/-- Results contributed by a file list when the loop has already made d id
draws: one ProcessedImage per successful file, in input order. -/
def successResults (idStream : Nat → String) :
    List InputFile → Nat → List ProcessedImage
  | [], _ => []
  | f :: rest, d =>
    match f.splitResult with
    | some qs => ⟨idStream d, stripName f.name, qs⟩ :: successResults idStream rest (d + 1)
    | none => successResults idStream rest d

/-- Number of files whose split succeeds. -/
def countSuccess (files : List InputFile) : Nat :=
  (files.filter (fun f => f.splitResult.isSome)).length

/-- Index of the last file whose split succeeds, if any. -/
def lastSuccessIdx : List InputFile → Option Nat
  | [] => none
  | f :: rest =>
    match lastSuccessIdx rest with
    | some j => some (j + 1)
    | none => if f.splitResult.isSome then some 0 else none

/-- One entry written into the JSZip archive: folder name, file name inside
that folder, and the blob's payload. -/
structure ZipEntry where
  folder : String
  name : String
  data : String
  deriving Repr, DecidableEq

/-- Modelled from the spec: dataURLtoBlob (src/utils/imageHelpers, not in the
snapshot) turns a data URL into a binary blob holding its decoded payload.
The blob is modelled by the payload text after the first comma of the URL,
so the blob is empty exactly when that payload is empty. -/
def dataURLtoBlob (dataUrl : String) : String :=
  String.mk ((dataUrl.data.dropWhile (fun c => c != ',')).drop 1)

/-- The four archive entries one ProcessedImage contributes (src/App.tsx
lines 90-96): a folder named after originalName holding files named
originalName ++ "_quad_" ++ (idx + 1) ++ ".png" for each quadrant index. -/
def quadFiles (item : ProcessedImage) : List ZipEntry :=
  item.quadrants.enum.map (fun p =>
    ⟨item.originalName,
      item.originalName ++ "_quad_" ++ toString (p.1 + 1) ++ ".png",
      dataURLtoBlob p.2⟩)

/-- The full entry sequence downloadZip feeds to JSZip, one forEach pass over
the processed results (src/App.tsx lines 89-96). -/
def buildZip (results : List ProcessedImage) : List ZipEntry :=
  results.foldl (fun zip item => zip ++ quadFiles item) []

/-- Folder/file path of an entry. -/
def zipPaths (entries : List ZipEntry) : List (String × String) :=
  entries.map (fun e => (e.folder, e.name))

/-- Number of folders in the produced archive.  JSZip's zip.folder returns
the existing folder when the name was already used, so the archive holds one
folder per distinct folder name. -/
def zipFolderCount (entries : List ZipEntry) : Nat :=
  ((entries.map (fun e => e.folder)).dedup).length

/-- Number of files in the produced archive.  JSZip's folder.file replaces an
existing file at the same path, so the archive holds one file per distinct
(folder, name) path. -/
def zipFileCount (entries : List ZipEntry) : Nat :=
  ((zipPaths entries).dedup).length

/-- The downloadZip handler (src/App.tsx lines 80-105).  When window.JSZip is
absent it alerts and returns with no archive built, no download triggered and
the state untouched; otherwise it builds the archive from the processed list
and hands it to the browser for download.  The first component is the archive
handed over for download (none when nothing is downloaded). -/
def downloadZip (jszipLoaded : Bool) (st : AppState) :
    Option (List ZipEntry) × AppState :=
  if jszipLoaded then (some (buildZip st.processed), st)
  else (none, st)

/-- C1: for every source image of width W and height H with W, H at least 2,
splitImageIntoFour produces exactly the four crops at origins (0,0),
(floor(W/2),0), (0,floor(H/2)), (floor(W/2),floor(H/2)) with sizes
(floor(W/2),floor(H/2)), (W-floor(W/2),floor(H/2)), (floor(W/2),H-floor(H/2)),
(W-floor(W/2),H-floor(H/2)), in row-major order, and every pixel of the image
lies in exactly one of the four crops: the quadrants tile the image with no
gap and no overlap, for odd as well as even W and H. -/
theorem splitImageIntoFour_quadrants_tile (W H : Nat) (hW : 2 ≤ W) (hH : 2 ≤ H) :
    splitImageIntoFour W H =
      [⟨0, 0, W / 2, H / 2⟩, ⟨W / 2, 0, W - W / 2, H / 2⟩,
       ⟨0, H / 2, W / 2, H - H / 2⟩, ⟨W / 2, H / 2, W - W / 2, H - H / 2⟩] ∧
    ∀ px py, px < W → py < H →
      ∃! r, r ∈ splitImageIntoFour W H ∧ inRect r px py := by
  refine ⟨rfl, fun px py hpx hpy => ?_⟩
  by_cases hx : px < W / 2 <;> by_cases hy : py < H / 2
  · refine ⟨⟨0, 0, W / 2, H / 2⟩, ⟨by simp [splitImageIntoFour], ?_⟩, ?_⟩
    · simp only [inRect]; omega
    · rintro r ⟨hr, hin⟩
      simp only [splitImageIntoFour, List.mem_cons, List.not_mem_nil, or_false] at hr
      rcases hr with rfl | rfl | rfl | rfl <;> simp only [inRect] at hin <;>
        first
        | rfl
        | exact absurd hin (by omega)
  · refine ⟨⟨0, H / 2, W / 2, H - H / 2⟩, ⟨by simp [splitImageIntoFour], ?_⟩, ?_⟩
    · simp only [inRect]; omega
    · rintro r ⟨hr, hin⟩
      simp only [splitImageIntoFour, List.mem_cons, List.not_mem_nil, or_false] at hr
      rcases hr with rfl | rfl | rfl | rfl <;> simp only [inRect] at hin <;>
        first
        | rfl
        | exact absurd hin (by omega)
  · refine ⟨⟨W / 2, 0, W - W / 2, H / 2⟩, ⟨by simp [splitImageIntoFour], ?_⟩, ?_⟩
    · simp only [inRect]; omega
    · rintro r ⟨hr, hin⟩
      simp only [splitImageIntoFour, List.mem_cons, List.not_mem_nil, or_false] at hr
      rcases hr with rfl | rfl | rfl | rfl <;> simp only [inRect] at hin <;>
        first
        | rfl
        | exact absurd hin (by omega)
  · refine ⟨⟨W / 2, H / 2, W - W / 2, H - H / 2⟩, ⟨by simp [splitImageIntoFour], ?_⟩, ?_⟩
    · simp only [inRect]; omega
    · rintro r ⟨hr, hin⟩
      simp only [splitImageIntoFour, List.mem_cons, List.not_mem_nil, or_false] at hr
      rcases hr with rfl | rfl | rfl | rfl <;> simp only [inRect] at hin <;>
        first
        | rfl
        | exact absurd hin (by omega)

/-- Witness for C1 at the odd-sized image W = 5, H = 3. -/
theorem splitImageIntoFour_quadrants_tile_witness :
    2 ≤ 5 ∧ 2 ≤ 3 ∧
      (splitImageIntoFour 5 3 =
        [⟨0, 0, 5 / 2, 3 / 2⟩, ⟨5 / 2, 0, 5 - 5 / 2, 3 / 2⟩,
         ⟨0, 3 / 2, 5 / 2, 3 - 3 / 2⟩, ⟨5 / 2, 3 / 2, 5 - 5 / 2, 3 - 3 / 2⟩] ∧
       ∀ px py, px < 5 → py < 3 →
         ∃! r, r ∈ splitImageIntoFour 5 3 ∧ inRect r px py) :=
  ⟨by decide, by decide, splitImageIntoFour_quadrants_tile 5 3 (by decide) (by decide)⟩

/-- Unfolding lemma: the loop on a cons steps once and continues. -/
theorem runAll_cons (N : Nat) (idStream : Nat → String) (f : InputFile)
    (rest : List InputFile) (a : LoopAcc) :
    runAll N idStream (f :: rest) a = runAll N idStream rest (loopStep N idStream f a) := rfl

/-- Results accumulated by the loop: the accumulator followed by one entry
per successful file, in input order, with ids drawn in sequence. -/
theorem runAll_results (N : Nat) (idStream : Nat → String)
    (files : List InputFile) (a : LoopAcc) :
    (runAll N idStream files a).results =
      a.results ++ successResults idStream files a.draws := by
  induction files generalizing a with
  | nil => simp [runAll, successResults]
  | cons f rest ih =>
    rw [runAll_cons]
    cases hf : f.splitResult with
    | none =>
      have hstep : loopStep N idStream f a = ⟨a.idx + 1, a.draws, a.results, a.st⟩ := by
        simp [loopStep, hf]
      rw [hstep, ih]
      simp [successResults, hf]
    | some qs =>
      have hstep : loopStep N idStream f a =
          ⟨a.idx + 1, a.draws + 1,
            a.results ++ [⟨idStream a.draws, stripName f.name, qs⟩],
            ⟨a.st.files, a.st.processed, a.st.status, progressOf (a.idx + 1) N⟩⟩ := by
        simp [loopStep, hf]
      rw [hstep, ih]
      simp [successResults, hf]

/-- The loop never writes status, the file list or the processed list: only
the final lines of processImages do. -/
theorem runAll_st_frame (N : Nat) (idStream : Nat → String)
    (files : List InputFile) (a : LoopAcc) :
    (runAll N idStream files a).st.status = a.st.status ∧
    (runAll N idStream files a).st.files = a.st.files ∧
    (runAll N idStream files a).st.processed = a.st.processed := by
  induction files generalizing a with
  | nil => simp [runAll]
  | cons f rest ih =>
    rw [runAll_cons]
    cases hf : f.splitResult with
    | none =>
      have hstep : loopStep N idStream f a = ⟨a.idx + 1, a.draws, a.results, a.st⟩ := by
        simp [loopStep, hf]
      rw [hstep]
      exact ih _
    | some qs =>
      have hstep : loopStep N idStream f a =
          ⟨a.idx + 1, a.draws + 1,
            a.results ++ [⟨idStream a.draws, stripName f.name, qs⟩],
            ⟨a.st.files, a.st.processed, a.st.status, progressOf (a.idx + 1) N⟩⟩ := by
        simp [loopStep, hf]
      rw [hstep]
      simpa using ih _

/-- Final progress written by the loop: the value set by the last successful
file, or the incoming progress when every file fails. -/
theorem runAll_progress (N : Nat) (idStream : Nat → String)
    (files : List InputFile) (a : LoopAcc) :
    (runAll N idStream files a).st.progress =
      (match lastSuccessIdx files with
       | none => a.st.progress
       | some j => progressOf (a.idx + j + 1) N) := by
  induction files generalizing a with
  | nil => simp [runAll, lastSuccessIdx]
  | cons f rest ih =>
    rw [runAll_cons]
    cases hf : f.splitResult with
    | none =>
      have hstep : loopStep N idStream f a = ⟨a.idx + 1, a.draws, a.results, a.st⟩ := by
        simp [loopStep, hf]
      rw [hstep, ih]
      simp only [lastSuccessIdx, hf]
      cases hrest : lastSuccessIdx rest with
      | none => simp
      | some j =>
        simp only
        congr 1
        omega
    | some qs =>
      have hstep : loopStep N idStream f a =
          ⟨a.idx + 1, a.draws + 1,
            a.results ++ [⟨idStream a.draws, stripName f.name, qs⟩],
            ⟨a.st.files, a.st.processed, a.st.status, progressOf (a.idx + 1) N⟩⟩ := by
        simp [loopStep, hf]
      rw [hstep, ih]
      simp only [lastSuccessIdx, hf]
      cases hrest : lastSuccessIdx rest with
      | none => simp
      | some j =>
        simp only
        congr 1
        omega

/-- C8: running processImages on an empty input list is a no-op: the state
record (status, progress, processed results, files) is returned unchanged and
no state write happens at all. -/
theorem processImages_empty_noop (st : AppState) (idStream : Nat → String)
    (h : st.files = []) :
    processImages st idStream = st ∧ processImagesTrace st idStream = [] := by
  constructor <;> simp [processImages, processImagesTrace, h]

/-- Witness for C8 on a concrete idle state with no files. -/
theorem processImages_empty_noop_witness :
    (⟨[], [], ProcessingStatus.IDLE, 0⟩ : AppState).files = [] ∧
    (processImages ⟨[], [], ProcessingStatus.IDLE, 0⟩ (fun _ => "x") =
        ⟨[], [], ProcessingStatus.IDLE, 0⟩ ∧
      processImagesTrace ⟨[], [], ProcessingStatus.IDLE, 0⟩ (fun _ => "x") = []) :=
  ⟨rfl, processImages_empty_noop ⟨[], [], ProcessingStatus.IDLE, 0⟩ (fun _ => "x") rfl⟩

/-- C10: when window.JSZip is not loaded, downloadZip hands nothing to the
browser (no archive is built, no download is triggered) and leaves the state,
in particular the processed result list, unchanged; being a total function it
throws nothing. -/
theorem downloadZip_no_jszip_noop (st : AppState) :
    downloadZip false st = (none, st) := by
  simp [downloadZip]

/-- Progress after the final of N attempts, when it is written, is 100. -/
theorem progressOf_self (N : Nat) (h : 0 < N) : progressOf N N = 100 := by
  unfold progressOf jsRound
  have h1 : 100 * (2 * N) ≤ 2 * (100 * N) + N := by omega
  have h2 : 2 * (100 * N) + N < (100 + 1) * (2 * N) := by omega
  exact Nat.div_eq_of_lt_le h1 h2

/-- Counterexample to C2: a batch of N = 1 images whose single image fails to
split ends with the progress counter still at 0, not at
round(100 * completed / N) = 100; the progress write sits inside the try
block after the successful push (src/App.tsx line 71), so a failed image
performs no progress update at all. -/
theorem processImages_progress_counterexample :
    (processImages ⟨[⟨"a.png", none⟩], [], ProcessingStatus.IDLE, 0⟩
        (fun _ => "x")).progress = 0 ∧
    progressOf 1 1 = 100 := ⟨rfl, rfl⟩

/-- C2 as amended: progress is updated only after each successful image, to
round(100 * (i + 1) / N) with i that image's 0-based index; failures leave
the counter untouched, so the final value is determined by the last
successful image (0 when none succeeds), and equals 100 whenever the last
image of the batch succeeds. -/
theorem processImages_progress_last_success (st : AppState)
    (idStream : Nat → String) (h : st.files ≠ []) :
    (processImages st idStream).progress =
      (match lastSuccessIdx st.files with
       | none => 0
       | some j => progressOf (j + 1) st.files.length) ∧
    (lastSuccessIdx st.files = some (st.files.length - 1) →
      (processImages st idStream).progress = 100) := by
  have hlen : ¬ st.files.length = 0 := by
    simpa using fun hl => h (List.length_eq_zero.mp hl)
  have h1 : (processImages st idStream).progress =
      (match lastSuccessIdx st.files with
       | none => 0
       | some j => progressOf (j + 1) st.files.length) := by
    simp only [processImages, hlen, if_false]
    rw [runAll_progress]
    cases hls : lastSuccessIdx st.files <;> simp [hls]
  refine ⟨h1, fun hlast => ?_⟩
  rw [h1, hlast]
  simp only
  have hpos : 0 < st.files.length := Nat.pos_of_ne_zero hlen
  have : st.files.length - 1 + 1 = st.files.length := by omega
  rw [this]
  exact progressOf_self _ hpos

/-- Witness for the amended C2 on a one-image batch that succeeds. -/
theorem processImages_progress_last_success_witness :
    (⟨[⟨"a.png", some ["q"]⟩], [], ProcessingStatus.IDLE, 0⟩ : AppState).files ≠ [] ∧
    ((processImages ⟨[⟨"a.png", some ["q"]⟩], [], ProcessingStatus.IDLE, 0⟩
          (fun _ => "x")).progress =
        (match lastSuccessIdx [⟨"a.png", some ["q"]⟩] with
         | none => 0
         | some j => progressOf (j + 1) 1) ∧
      (lastSuccessIdx [⟨"a.png", some ["q"]⟩] = some (1 - 1) →
        (processImages ⟨[⟨"a.png", some ["q"]⟩], [], ProcessingStatus.IDLE, 0⟩
            (fun _ => "x")).progress = 100)) :=
  ⟨by decide,
    processImages_progress_last_success
      ⟨[⟨"a.png", some ["q"]⟩], [], ProcessingStatus.IDLE, 0⟩ (fun _ => "x")
      (by decide)⟩

/-- A loop iteration never changes the run status field. -/
theorem loopStep_status (N : Nat) (idStream : Nat → String) (f : InputFile)
    (a : LoopAcc) : (loopStep N idStream f a).st.status = a.st.status := by
  cases hf : f.splitResult <;> simp [loopStep, hf]

/-- Every state the loop writes keeps the incoming run status. -/
theorem loopTrace_status (N : Nat) (idStream : Nat → String)
    (files : List InputFile) (a : LoopAcc) :
    (loopTrace N idStream files a).map (fun x => x.st.status) =
      List.replicate files.length a.st.status := by
  induction files generalizing a with
  | nil => simp [loopTrace]
  | cons f rest ih =>
    simp only [loopTrace, List.map_cons, List.length_cons, List.replicate_succ]
    rw [loopStep_status, ih, loopStep_status]

/-- The last accumulator of the loop trace is the loop's result. -/
theorem loopTrace_getLastD (N : Nat) (idStream : Nat → String)
    (files : List InputFile) (a : LoopAcc) :
    (loopTrace N idStream files a).getLastD a = runAll N idStream files a := by
  induction files generalizing a with
  | nil => simp [loopTrace, runAll]
  | cons f rest ih =>
    simp only [loopTrace, runAll_cons, List.getLastD_cons]
    exact ih _


/-- C7: a run of processImages on N > 0 files starting from Idle writes
exactly this status sequence: one transition Idle to Processing at the start,
Processing throughout the loop, and one transition to Completed once all N
files have been attempted (Completed regardless of per-item outcomes); the
last written state is the function's result, whose status is Completed, so
no other transition occurs during the run. -/
theorem processImages_status_transitions (st : AppState)
    (idStream : Nat → String) (h0 : st.status = ProcessingStatus.IDLE)
    (hN : st.files ≠ []) :
    ((st :: processImagesTrace st idStream).map (fun s => s.status)) =
      ProcessingStatus.IDLE ::
        (List.replicate (st.files.length + 1) ProcessingStatus.PROCESSING ++
          [ProcessingStatus.COMPLETED]) ∧
    (processImagesTrace st idStream).getLast? =
      some (processImages st idStream) ∧
    (processImages st idStream).status = ProcessingStatus.COMPLETED := by
  have hlen : ¬ st.files.length = 0 := by
    simpa using fun hl => hN (List.length_eq_zero.mp hl)
  refine ⟨?_, ?_, ?_⟩
  · simp only [processImagesTrace, hlen, if_false, List.map_cons, List.map_append,
      List.map_map, h0]
    rw [List.replicate_succ]
    simp only [List.cons_append]
    congr 2
    have := loopTrace_status st.files.length idStream st.files
      ⟨0, 0, [], ⟨st.files, [], ProcessingStatus.PROCESSING, 0⟩⟩
    simpa [Function.comp] using this
  · simp only [processImagesTrace, processImages, hlen, if_false]
    rw [List.getLast?_concat, loopTrace_getLastD]
  · simp [processImages, hlen]

/-- Witness for C7 on a one-image batch starting from the idle state. -/
theorem processImages_status_transitions_witness :
    (⟨[⟨"a.png", some ["q"]⟩], [], ProcessingStatus.IDLE, 0⟩ : AppState).status =
        ProcessingStatus.IDLE ∧
    (⟨[⟨"a.png", some ["q"]⟩], [], ProcessingStatus.IDLE, 0⟩ : AppState).files ≠ [] ∧
    ((((⟨[⟨"a.png", some ["q"]⟩], [], ProcessingStatus.IDLE, 0⟩ : AppState) ::
          processImagesTrace ⟨[⟨"a.png", some ["q"]⟩], [], ProcessingStatus.IDLE, 0⟩
            (fun _ => "x")).map (fun s => s.status)) =
        ProcessingStatus.IDLE ::
          (List.replicate 2 ProcessingStatus.PROCESSING ++
            [ProcessingStatus.COMPLETED]) ∧
      (processImagesTrace ⟨[⟨"a.png", some ["q"]⟩], [], ProcessingStatus.IDLE, 0⟩
          (fun _ => "x")).getLast? =
        some (processImages ⟨[⟨"a.png", some ["q"]⟩], [], ProcessingStatus.IDLE, 0⟩
          (fun _ => "x")) ∧
      (processImages ⟨[⟨"a.png", some ["q"]⟩], [], ProcessingStatus.IDLE, 0⟩
          (fun _ => "x")).status = ProcessingStatus.COMPLETED) :=
  ⟨rfl, by decide,
    processImages_status_transitions
      ⟨[⟨"a.png", some ["q"]⟩], [], ProcessingStatus.IDLE, 0⟩ (fun _ => "x")
      rfl (by decide)⟩

/-- The processed list a nonempty run produces is exactly the loop's success
results, the prior processed list being discarded. -/
theorem processImages_processed_eq (st : AppState) (idStream : Nat → String)
    (hlen : ¬ st.files.length = 0) :
    (processImages st idStream).processed = successResults idStream st.files 0 := by
  simp only [processImages, hlen, if_false]
  rw [runAll_results]
  simp

/-- Success results, projected to display name and quadrants, are the
successful files in input order. -/
theorem successResults_map_pair (idStream : Nat → String) (files : List InputFile)
    (d : Nat) :
    (successResults idStream files d).map (fun r => (r.originalName, r.quadrants)) =
      (files.filter (fun f => f.splitResult.isSome)).map
        (fun f => (stripName f.name, f.splitResult.getD [])) := by
  induction files generalizing d with
  | nil => simp [successResults]
  | cons f rest ih =>
    cases hf : f.splitResult with
    | none => simp [successResults, hf, List.filter_cons, ih]
    | some qs => simp [successResults, hf, List.filter_cons, ih]

/-- Success results, projected to display names only. -/
theorem successResults_map_name (idStream : Nat → String) (files : List InputFile)
    (d : Nat) :
    (successResults idStream files d).map (fun r => r.originalName) =
      (files.filter (fun f => f.splitResult.isSome)).map
        (fun f => stripName f.name) := by
  induction files generalizing d with
  | nil => simp [successResults]
  | cons f rest ih =>
    cases hf : f.splitResult with
    | none => simp [successResults, hf, List.filter_cons, ih]
    | some qs => simp [successResults, hf, List.filter_cons, ih]

/-- Every id in the success results is a draw of the stream at or after the
starting draw count. -/
theorem mem_successResults_ids (idStream : Nat → String) (files : List InputFile)
    (d : Nat) (s : String)
    (hs : s ∈ (successResults idStream files d).map (fun r => r.id)) :
    ∃ k, d ≤ k ∧ s = idStream k := by
  induction files generalizing d with
  | nil => simp [successResults] at hs
  | cons f rest ih =>
    cases hf : f.splitResult with
    | none =>
      rw [successResults, hf] at hs
      exact ih d hs
    | some qs =>
      rw [successResults, hf] at hs
      simp only [List.map_cons, List.mem_cons] at hs
      rcases hs with rfl | hs
      · exact ⟨d, le_refl d, rfl⟩
      · obtain ⟨k, hk, hsk⟩ := ih (d + 1) hs
        exact ⟨k, by omega, hsk⟩

/-- When the id stream never repeats a value, the ids of the success results
are pairwise distinct. -/
theorem successResults_ids_nodup (idStream : Nat → String)
    (hinj : ∀ m n : Nat, idStream m = idStream n → m = n)
    (files : List InputFile) (d : Nat) :
    ((successResults idStream files d).map (fun r => r.id)).Nodup := by
  induction files generalizing d with
  | nil => simp [successResults]
  | cons f rest ih =>
    cases hf : f.splitResult with
    | none =>
      rw [successResults, hf]
      exact ih d
    | some qs =>
      rw [successResults, hf]
      simp only [List.map_cons, List.nodup_cons]
      refine ⟨fun hmem => ?_, ih (d + 1)⟩
      obtain ⟨k, hk, hsk⟩ := mem_successResults_ids idStream rest (d + 1) _ hmem
      have := hinj d k hsk
      omega

/-- When exactly one file (at index k) fails, keeping the successes is the
same as deleting index k from the input list. -/
theorem filter_isSome_eq_eraseIdx (files : List InputFile) (k : Nat)
    (hk : k < files.length)
    (hfail : (files.get ⟨k, hk⟩).splitResult = none)
    (hrest : ∀ j, (hj : j < files.length) → j ≠ k →
      ((files.get ⟨j, hj⟩).splitResult).isSome = true) :
    files.filter (fun f => f.splitResult.isSome) = files.eraseIdx k := by
  induction files generalizing k with
  | nil => exact absurd hk (by simp)
  | cons f rest ih =>
    cases k with
    | zero =>
      have hf : f.splitResult = none := hfail
      have hall : ∀ a ∈ rest, (fun g => g.splitResult.isSome) a = true := by
        intro a ha
        obtain ⟨n, hn⟩ := List.mem_iff_get.mp ha
        have h2 := hrest (n.val + 1) (by simp) (by omega)
        simp only [List.get_cons_succ] at h2
        rw [← hn]
        simpa using h2
      simp [List.filter_cons, hf, List.filter_eq_self.mpr hall]
    | succ k2 =>
      have hf : f.splitResult.isSome = true := by
        have h2 := hrest 0 (by simp) (by omega)
        simpa using h2
      have hk2 : k2 < rest.length := by
        simp only [List.length_cons] at hk
        omega
      have hfail2 : (rest.get ⟨k2, hk2⟩).splitResult = none := by
        simpa using hfail
      have hrest2 : ∀ j, (hj : j < rest.length) → j ≠ k2 →
          ((rest.get ⟨j, hj⟩).splitResult).isSome = true := by
        intro j hj hjk
        have h2 := hrest (j + 1) (by simp; omega) (by omega)
        simpa using h2
      simp [List.filter_cons, hf, ih k2 hk2 hfail2 hrest2]

/-- C3: in a batch where exactly the file at index k fails to split and all
others succeed, processImages catches the failure and continues: it returns
normally (it is a total function), and its result list has length N - 1 and
holds, in input order, one entry per file other than file k, carrying that
file's display name and quadrants. -/
theorem processImages_single_failure_skipped (st : AppState)
    (idStream : Nat → String) (k : Nat) (hk : k < st.files.length)
    (hfail : (st.files.get ⟨k, hk⟩).splitResult = none)
    (hrest : ∀ j, (hj : j < st.files.length) → j ≠ k →
      ((st.files.get ⟨j, hj⟩).splitResult).isSome = true) :
    (processImages st idStream).processed.length = st.files.length - 1 ∧
    (processImages st idStream).processed.map
        (fun r => (r.originalName, r.quadrants)) =
      (st.files.eraseIdx k).map
        (fun f => (stripName f.name, f.splitResult.getD [])) := by
  have hlen : ¬ st.files.length = 0 := by omega
  have hproc := processImages_processed_eq st idStream hlen
  have hfe := filter_isSome_eq_eraseIdx st.files k hk hfail hrest
  constructor
  · rw [hproc]
    have hlm := congrArg List.length (successResults_map_pair idStream st.files 0)
    simp only [List.length_map] at hlm
    rw [hlm, hfe]
    have := List.length_eraseIdx_add_one hk
    omega
  · rw [hproc, successResults_map_pair, hfe]

/-- Witness for C3: a three-image batch whose middle image is corrupt. -/
theorem processImages_single_failure_skipped_witness :
    1 < (⟨[⟨"a.png", some ["q1"]⟩, ⟨"b.png", none⟩, ⟨"c.png", some ["q2"]⟩], [],
        ProcessingStatus.IDLE, 0⟩ : AppState).files.length ∧
    ((processImages ⟨[⟨"a.png", some ["q1"]⟩, ⟨"b.png", none⟩,
          ⟨"c.png", some ["q2"]⟩], [], ProcessingStatus.IDLE, 0⟩
        (fun _ => "x")).processed.length = 3 - 1 ∧
      (processImages ⟨[⟨"a.png", some ["q1"]⟩, ⟨"b.png", none⟩,
          ⟨"c.png", some ["q2"]⟩], [], ProcessingStatus.IDLE, 0⟩
        (fun _ => "x")).processed.map (fun r => (r.originalName, r.quadrants)) =
      (([⟨"a.png", some ["q1"]⟩, ⟨"b.png", none⟩,
          ⟨"c.png", some ["q2"]⟩] : List InputFile).eraseIdx 1).map
        (fun f => (stripName f.name, f.splitResult.getD []))) :=
  ⟨by decide,
    processImages_single_failure_skipped
      ⟨[⟨"a.png", some ["q1"]⟩, ⟨"b.png", none⟩, ⟨"c.png", some ["q2"]⟩], [],
        ProcessingStatus.IDLE, 0⟩
      (fun _ => "x") 1 (by decide) (by decide) (by decide)⟩

/-- Counterexample to C5: for the filename "a.b.png", which has more than one
dot, the stored display name is "a" (the part before the FIRST dot, from
file.name.split('.')[0]), while the filename minus its final extension is
"a.b"; the two differ, so originalName is not the filename minus its final
extension. -/
theorem originalName_multidot_counterexample :
    (processImages ⟨[⟨"a.b.png", some ["q1", "q2", "q3", "q4"]⟩], [],
        ProcessingStatus.IDLE, 0⟩ (fun _ => "x")).processed.map
        (fun r => r.originalName) = ["a"] ∧
    dropLastExt "a.b.png" = "a.b" ∧
    ("a" : String) ≠ "a.b" :=
  ⟨rfl, rfl, by decide⟩

/-- C5 as amended: the display name stored in each ProcessedResult is the
original filename truncated at its FIRST dot (which coincides with stripping
the final extension only for filenames with at most one dot): over any run
whose files all split, the stored names are exactly stripName of each
filename, in order. -/
theorem processImages_originalName_first_dot (st : AppState)
    (idStream : Nat → String) (h0 : st.files ≠ [])
    (h : ∀ f ∈ st.files, f.splitResult.isSome = true) :
    (processImages st idStream).processed.map (fun r => r.originalName) =
      st.files.map (fun f => stripName f.name) := by
  have hlen : ¬ st.files.length = 0 := by
    simpa using fun hl => h0 (List.length_eq_zero.mp hl)
  rw [processImages_processed_eq st idStream hlen, successResults_map_name,
    List.filter_eq_self.mpr h]

/-- Witness for the amended C5 on a two-image batch with multi-dot names. -/
theorem processImages_originalName_first_dot_witness :
    (⟨[⟨"a.b.png", some ["q1"]⟩, ⟨"photo.final.v2.jpg", some ["q2"]⟩], [],
        ProcessingStatus.IDLE, 0⟩ : AppState).files ≠ [] ∧
    (∀ f ∈ (⟨[⟨"a.b.png", some ["q1"]⟩, ⟨"photo.final.v2.jpg", some ["q2"]⟩], [],
        ProcessingStatus.IDLE, 0⟩ : AppState).files, f.splitResult.isSome = true) ∧
    (processImages ⟨[⟨"a.b.png", some ["q1"]⟩, ⟨"photo.final.v2.jpg", some ["q2"]⟩],
        [], ProcessingStatus.IDLE, 0⟩ (fun _ => "x")).processed.map
        (fun r => r.originalName) =
      ([⟨"a.b.png", some ["q1"]⟩, ⟨"photo.final.v2.jpg", some ["q2"]⟩] :
        List InputFile).map (fun f => stripName f.name) :=
  ⟨by decide, by decide,
    processImages_originalName_first_dot
      ⟨[⟨"a.b.png", some ["q1"]⟩, ⟨"photo.final.v2.jpg", some ["q2"]⟩], [],
        ProcessingStatus.IDLE, 0⟩
      (fun _ => "x") (by decide) (by decide)⟩

/-- Counterexample to C9: ids come from Math.random, which may repeat a
value; when the two draws of a two-image run render to the same string, the
two ProcessedResults share an id, so freshness within a run is not
guaranteed by the code. -/
theorem processImages_id_collision :
    ((processImages ⟨[⟨"a.png", some ["q"]⟩, ⟨"b.png", some ["q"]⟩], [],
        ProcessingStatus.IDLE, 0⟩ (fun _ => "dup")).processed.map
        (fun r => r.id)) = ["dup", "dup"] ∧
    ¬ ((processImages ⟨[⟨"a.png", some ["q"]⟩, ⟨"b.png", some ["q"]⟩], [],
        ProcessingStatus.IDLE, 0⟩ (fun _ => "dup")).processed.map
        (fun r => r.id)).Nodup :=
  ⟨rfl, by decide⟩

/-- C9 as amended: each ProcessedResult's id is the rendering of a fresh
Math.random draw, one draw per success in order; the ids of a run are
pairwise distinct provided the rendered draws never repeat, a property the
code relies on probabilistically rather than enforcing. -/
theorem processImages_ids_nodup_of_injective (st : AppState)
    (idStream : Nat → String) (h0 : st.files ≠ [])
    (hinj : ∀ m n : Nat, idStream m = idStream n → m = n) :
    ((processImages st idStream).processed.map (fun r => r.id)).Nodup := by
  have hlen : ¬ st.files.length = 0 := by
    simpa using fun hl => h0 (List.length_eq_zero.mp hl)
  rw [processImages_processed_eq st idStream hlen]
  exact successResults_ids_nodup idStream hinj st.files 0

/-- Witness for the amended C9 with an injective id stream. -/
theorem processImages_ids_nodup_of_injective_witness :
    (⟨[⟨"a.png", some ["q"]⟩, ⟨"b.png", some ["q"]⟩], [],
        ProcessingStatus.IDLE, 0⟩ : AppState).files ≠ [] ∧
    ((processImages ⟨[⟨"a.png", some ["q"]⟩, ⟨"b.png", some ["q"]⟩], [],
        ProcessingStatus.IDLE, 0⟩
        (fun n => String.mk (List.replicate n 'a'))).processed.map
        (fun r => r.id)).Nodup :=
  ⟨by decide,
    processImages_ids_nodup_of_injective
      ⟨[⟨"a.png", some ["q"]⟩, ⟨"b.png", some ["q"]⟩], [],
        ProcessingStatus.IDLE, 0⟩
      (fun n => String.mk (List.replicate n 'a'))
      (by decide)
      (fun m n h => by
        have h2 := congrArg (fun s => s.data.length) h
        simpa using h2)⟩

/-- A list of length four is an explicit four-element list. -/
theorem list_length_four {α : Type} {l : List α} (h : l.length = 4) :
    ∃ a b c d : α, l = [a, b, c, d] := by
  cases l with
  | nil => simp at h
  | cons a t =>
    cases t with
    | nil => simp at h
    | cons b t2 =>
      cases t2 with
      | nil => simp at h
      | cons c t3 =>
        cases t3 with
        | nil => simp at h
        | cons d t4 =>
          cases t4 with
          | nil => exact ⟨a, b, c, d, rfl⟩
          | cons e t5 => simp at h

/-- Appending on the left of strings is injective on the right argument. -/
theorem string_append_right_inj (s t u : String) : s ++ t = s ++ u ↔ t = u := by
  constructor
  · intro h
    apply String.ext
    have h2 := congrArg String.data h
    simp only [String.data_append] at h2
    exact List.append_cancel_left h2
  · intro h
    rw [h]

/-- With four quadrants present, an item's archive entries are exactly the
four files quad 1 to quad 4 in its folder, in quadrant order. -/
theorem quadFiles_eq_four (item : ProcessedImage) (q0 q1 q2 q3 : String)
    (h : item.quadrants = [q0, q1, q2, q3]) :
    quadFiles item =
      [⟨item.originalName, item.originalName ++ "_quad_1.png", dataURLtoBlob q0⟩,
       ⟨item.originalName, item.originalName ++ "_quad_2.png", dataURLtoBlob q1⟩,
       ⟨item.originalName, item.originalName ++ "_quad_3.png", dataURLtoBlob q2⟩,
       ⟨item.originalName, item.originalName ++ "_quad_4.png", dataURLtoBlob q3⟩] := by
  simp only [quadFiles, h, List.enum, List.enumFrom, List.map_cons, List.map_nil,
    String.append_assoc]
  rfl

/-- Every entry an item contributes goes into the folder named after it. -/
theorem quadFiles_folder (item : ProcessedImage) (e : ZipEntry)
    (he : e ∈ quadFiles item) : e.folder = item.originalName := by
  simp only [quadFiles, List.mem_map] at he
  obtain ⟨p, hp, rfl⟩ := he
  rfl

/-- An item contributes one archive entry per quadrant. -/
theorem quadFiles_length (item : ProcessedImage) :
    (quadFiles item).length = item.quadrants.length := by
  simp [quadFiles]

/-- The forEach fold of downloadZip is the concatenation of each item's
entries. -/
theorem buildZip_eq_flatMap (results : List ProcessedImage) :
    buildZip results = results.flatMap quadFiles := by
  suffices h : ∀ acc : List ZipEntry,
      results.foldl (fun zip item => zip ++ quadFiles item) acc =
        acc ++ results.flatMap quadFiles by
    simpa using h []
  induction results with
  | nil => intro acc; simp
  | cons r rest ih =>
    intro acc
    simp only [List.foldl_cons, List.flatMap_cons, ih, List.append_assoc]

/-- Folder names of an item's entries: its display name, once per quadrant. -/
theorem quadFiles_map_folder (item : ProcessedImage) :
    (quadFiles item).map (fun e => e.folder) =
      List.replicate item.quadrants.length item.originalName := by
  simp only [quadFiles, List.map_map]
  have hc : ((fun e : ZipEntry => e.folder) ∘ (fun p : Nat × String =>
      (⟨item.originalName,
        item.originalName ++ "_quad_" ++ toString (p.1 + 1) ++ ".png",
        dataURLtoBlob p.2⟩ : ZipEntry))) = fun _ => item.originalName := rfl
  rw [hc, List.map_const', List.enum_length]

/-- Distinct count of a nonempty run of one value followed by a list the
value does not appear in. -/
theorem dedup_replicate_append_length {α : Type} [DecidableEq α] (a : α)
    (k : Nat) (hk : k ≠ 0) (L : List α) (ha : a ∉ L) :
    ((List.replicate k a ++ L).dedup).length = 1 + L.dedup.length := by
  induction k with
  | zero => exact absurd rfl hk
  | succ k2 ih =>
    cases Nat.eq_zero_or_pos k2 with
    | inl h0 =>
      subst h0
      have he : List.replicate 1 a ++ L = a :: L := by simp
      rw [he, List.dedup_cons_of_not_mem ha]
      simp [Nat.add_comm]
    | inr hpos =>
      rw [List.replicate_succ, List.cons_append, List.dedup_cons_of_mem]
      · exact ih (by omega)
      · exact List.mem_append_left _ (List.mem_replicate.mpr ⟨by omega, rfl⟩)

/-- With pairwise-distinct display names, the archive's distinct folder
count is the number of results. -/
theorem replicate_flatMap_dedup_length (results : List ProcessedImage)
    (hnames : (results.map (fun r => r.originalName)).Nodup)
    (hquads : ∀ r ∈ results, r.quadrants.length = 4) :
    ((results.flatMap
        (fun r => List.replicate r.quadrants.length r.originalName)).dedup).length =
      results.length := by
  induction results with
  | nil => simp
  | cons r rest ih =>
    simp only [List.map_cons, List.nodup_cons] at hnames
    obtain ⟨hhead, htail⟩ := hnames
    rw [List.flatMap_cons, hquads r (List.mem_cons_self r rest)]
    have hnot : r.originalName ∉
        rest.flatMap (fun x => List.replicate x.quadrants.length x.originalName) := by
      intro hmem
      obtain ⟨x, hx, hmem2⟩ := List.mem_flatMap.mp hmem
      have hx2 := (List.mem_replicate.mp hmem2).2
      exact hhead (List.mem_map.mpr ⟨x, hx, hx2.symm⟩)
    rw [dedup_replicate_append_length r.originalName 4 (by omega) _ hnot,
      ih htail (fun x hx => hquads x (List.mem_cons_of_mem r hx))]
    simp [List.length_cons, Nat.add_comm]

/-- With pairwise-distinct display names no two archive entries share a
(folder, filename) path. -/
theorem flatMap_quadFiles_paths_nodup (results : List ProcessedImage)
    (hnames : (results.map (fun r => r.originalName)).Nodup)
    (hquads : ∀ r ∈ results, r.quadrants.length = 4) :
    (zipPaths (results.flatMap quadFiles)).Nodup := by
  induction results with
  | nil => simp [zipPaths]
  | cons r rest ih =>
    simp only [List.map_cons, List.nodup_cons] at hnames
    obtain ⟨hhead, htail⟩ := hnames
    rw [List.flatMap_cons]
    unfold zipPaths
    rw [List.map_append, List.nodup_append]
    refine ⟨?_, ih htail (fun x hx => hquads x (List.mem_cons_of_mem r hx)), ?_⟩
    · obtain ⟨q0, q1, q2, q3, hq⟩ := list_length_four (hquads r (List.mem_cons_self r rest))
      rw [quadFiles_eq_four r q0 q1 q2 q3 hq]
      simp only [List.map_cons, List.map_nil, List.nodup_cons, List.mem_cons,
        List.not_mem_nil, or_false, Prod.mk.injEq, string_append_right_inj,
        List.nodup_nil, and_true, not_or]
      decide
    · intro p hp hp2
      obtain ⟨e, he, hpe⟩ := List.mem_map.mp hp
      obtain ⟨e2, he2, hpe2⟩ := List.mem_map.mp hp2
      obtain ⟨x, hx, he3⟩ := List.mem_flatMap.mp he2
      have h1 : e.folder = r.originalName := quadFiles_folder r e he
      have h2 : e2.folder = x.originalName := quadFiles_folder x e2 he3
      apply hhead
      refine List.mem_map.mpr ⟨x, hx, ?_⟩
      have hfst := congrArg Prod.fst (hpe2.trans hpe.symm)
      simp only at hfst
      rw [← h2, hfst, h1]

/-- Total number of archive entries: four per result. -/
theorem flatMap_quadFiles_length (results : List ProcessedImage)
    (hquads : ∀ r ∈ results, r.quadrants.length = 4) :
    (results.flatMap quadFiles).length = 4 * results.length := by
  induction results with
  | nil => simp
  | cons r rest ih =>
    rw [List.flatMap_cons, List.length_append, quadFiles_length,
      hquads r (List.mem_cons_self r rest),
      ih (fun x hx => hquads x (List.mem_cons_of_mem r hx))]
    simp only [List.length_cons]
    omega

/-- Folder names of all archive entries, one per quadrant of each result. -/
theorem flatMap_quadFiles_map_folder (results : List ProcessedImage) :
    ((results.flatMap quadFiles).map (fun e => e.folder)) =
      results.flatMap (fun r => List.replicate r.quadrants.length r.originalName) := by
  induction results with
  | nil => simp
  | cons r rest ih =>
    simp only [List.flatMap_cons, List.map_append, ih, quadFiles_map_folder]

/-- Every archive entry's payload is the decoded blob of one of the
contributing result's quadrant data URLs. -/
theorem mem_buildZip_data (results : List ProcessedImage) (e : ZipEntry)
    (he : e ∈ buildZip results) :
    ∃ r ∈ results, ∃ q ∈ r.quadrants, e.data = dataURLtoBlob q := by
  rw [buildZip_eq_flatMap] at he
  obtain ⟨r, hr, he2⟩ := List.mem_flatMap.mp he
  simp only [quadFiles, List.mem_map] at he2
  obtain ⟨p, hp, rfl⟩ := he2
  have hq : r.quadrants[p.1]? = some p.2 := List.mem_enum_iff_getElem?.mp hp
  exact ⟨r, hr, p.2, List.getElem?_mem hq, rfl⟩

/-- Counterexample to C4: two ProcessedResults sharing the display name "a"
(M = 2) produce an archive with one folder and four files, not two folders
and eight files: JSZip's zip.folder returns the existing folder for a
repeated name and folder.file overwrites same-named files, so folders are
NOT independent under duplicate display names. -/
theorem downloadZip_duplicate_names_collide :
    zipFolderCount (buildZip [⟨"i1", "a", ["d,1", "d,2", "d,3", "d,4"]⟩,
        ⟨"i2", "a", ["d,5", "d,6", "d,7", "d,8"]⟩]) = 1 ∧
    zipFileCount (buildZip [⟨"i1", "a", ["d,1", "d,2", "d,3", "d,4"]⟩,
        ⟨"i2", "a", ["d,5", "d,6", "d,7", "d,8"]⟩]) = 4 ∧
    ¬ zipFolderCount (buildZip [⟨"i1", "a", ["d,1", "d,2", "d,3", "d,4"]⟩,
        ⟨"i2", "a", ["d,5", "d,6", "d,7", "d,8"]⟩]) = 2 ∧
    ¬ zipFileCount (buildZip [⟨"i1", "a", ["d,1", "d,2", "d,3", "d,4"]⟩,
        ⟨"i2", "a", ["d,5", "d,6", "d,7", "d,8"]⟩]) = 4 * 2 := by
  decide

/-- C4 as amended: for M ProcessedResults whose display names are pairwise
distinct, each carrying its four quadrants, the archive downloadZip builds
holds exactly M folders and exactly 4 M files, and each file is non-empty
whenever the quadrant data URL it decodes has a non-empty payload; when two
results share a display name their entries collapse into one folder with
silent overwrites. -/
theorem downloadZip_archive_counts (results : List ProcessedImage)
    (hnames : (results.map (fun r => r.originalName)).Nodup)
    (hquads : ∀ r ∈ results, r.quadrants.length = 4)
    (hne : ∀ r ∈ results, ∀ q ∈ r.quadrants, dataURLtoBlob q ≠ "") :
    zipFolderCount (buildZip results) = results.length ∧
    zipFileCount (buildZip results) = 4 * results.length ∧
    ∀ e ∈ buildZip results, e.data ≠ "" := by
  refine ⟨?_, ?_, ?_⟩
  · unfold zipFolderCount
    rw [buildZip_eq_flatMap, flatMap_quadFiles_map_folder]
    exact replicate_flatMap_dedup_length results hnames hquads
  · unfold zipFileCount
    have hnd := flatMap_quadFiles_paths_nodup results hnames hquads
    rw [buildZip_eq_flatMap, List.dedup_eq_self.mpr hnd]
    unfold zipPaths
    rw [List.length_map]
    exact flatMap_quadFiles_length results hquads
  · intro e he
    obtain ⟨r, hr, q, hq, hdata⟩ := mem_buildZip_data results e he
    rw [hdata]
    exact hne r hr q hq

/-- Witness for the amended C4 on two results with distinct names. -/
theorem downloadZip_archive_counts_witness :
    ((([⟨"i1", "a", ["x,1", "x,2", "x,3", "x,4"]⟩,
        ⟨"i2", "b", ["y,1", "y,2", "y,3", "y,4"]⟩] : List ProcessedImage).map
        (fun r => r.originalName)).Nodup ∧
      (∀ r ∈ ([⟨"i1", "a", ["x,1", "x,2", "x,3", "x,4"]⟩,
          ⟨"i2", "b", ["y,1", "y,2", "y,3", "y,4"]⟩] : List ProcessedImage),
        r.quadrants.length = 4) ∧
      (∀ r ∈ ([⟨"i1", "a", ["x,1", "x,2", "x,3", "x,4"]⟩,
          ⟨"i2", "b", ["y,1", "y,2", "y,3", "y,4"]⟩] : List ProcessedImage),
        ∀ q ∈ r.quadrants, dataURLtoBlob q ≠ "")) ∧
    (zipFolderCount (buildZip [⟨"i1", "a", ["x,1", "x,2", "x,3", "x,4"]⟩,
        ⟨"i2", "b", ["y,1", "y,2", "y,3", "y,4"]⟩]) = 2 ∧
      zipFileCount (buildZip [⟨"i1", "a", ["x,1", "x,2", "x,3", "x,4"]⟩,
        ⟨"i2", "b", ["y,1", "y,2", "y,3", "y,4"]⟩]) = 4 * 2 ∧
      ∀ e ∈ buildZip [⟨"i1", "a", ["x,1", "x,2", "x,3", "x,4"]⟩,
        ⟨"i2", "b", ["y,1", "y,2", "y,3", "y,4"]⟩], e.data ≠ "") :=
  ⟨⟨by decide, by decide, by decide⟩,
    downloadZip_archive_counts
      [⟨"i1", "a", ["x,1", "x,2", "x,3", "x,4"]⟩,
       ⟨"i2", "b", ["y,1", "y,2", "y,3", "y,4"]⟩]
      (by decide) (by decide) (by decide)⟩

/-- C6: each ProcessedResult placed in the archive gets a folder named
exactly its display name containing exactly four files named
displayName_quad_n.png for n = 1..4, file n holding the blob of quadrant
index n - 1 in the fixed row-major order, and all four entries are present
in the archive downloadZip builds. -/
theorem downloadZip_folder_file_naming (results : List ProcessedImage)
    (item : ProcessedImage) (hmem : item ∈ results)
    (h4 : item.quadrants.length = 4) :
    quadFiles item =
      [⟨item.originalName, item.originalName ++ "_quad_1.png",
          dataURLtoBlob (item.quadrants.get ⟨0, by omega⟩)⟩,
       ⟨item.originalName, item.originalName ++ "_quad_2.png",
          dataURLtoBlob (item.quadrants.get ⟨1, by omega⟩)⟩,
       ⟨item.originalName, item.originalName ++ "_quad_3.png",
          dataURLtoBlob (item.quadrants.get ⟨2, by omega⟩)⟩,
       ⟨item.originalName, item.originalName ++ "_quad_4.png",
          dataURLtoBlob (item.quadrants.get ⟨3, by omega⟩)⟩] ∧
    ∀ e ∈ quadFiles item, e ∈ buildZip results := by
  obtain ⟨q0, q1, q2, q3, hq⟩ := list_length_four h4
  constructor
  · rw [quadFiles_eq_four item q0 q1 q2 q3 hq]
    simp [hq]
  · intro e he
    rw [buildZip_eq_flatMap]
    exact List.mem_flatMap.mpr ⟨item, hmem, he⟩

/-- Witness for C6 on a one-result archive. -/
theorem downloadZip_folder_file_naming_witness :
    (⟨"id1", "img", ["u,1", "u,2", "u,3", "u,4"]⟩ : ProcessedImage) ∈
        ([⟨"id1", "img", ["u,1", "u,2", "u,3", "u,4"]⟩] : List ProcessedImage) ∧
    (⟨"id1", "img", ["u,1", "u,2", "u,3", "u,4"]⟩ : ProcessedImage).quadrants.length = 4 ∧
    (quadFiles ⟨"id1", "img", ["u,1", "u,2", "u,3", "u,4"]⟩ =
      [⟨"img", "img_quad_1.png", dataURLtoBlob "u,1"⟩,
       ⟨"img", "img_quad_2.png", dataURLtoBlob "u,2"⟩,
       ⟨"img", "img_quad_3.png", dataURLtoBlob "u,3"⟩,
       ⟨"img", "img_quad_4.png", dataURLtoBlob "u,4"⟩] ∧
      ∀ e ∈ quadFiles ⟨"id1", "img", ["u,1", "u,2", "u,3", "u,4"]⟩,
        e ∈ buildZip [⟨"id1", "img", ["u,1", "u,2", "u,3", "u,4"]⟩]) :=
  ⟨by decide, by decide,
    downloadZip_folder_file_naming
      [⟨"id1", "img", ["u,1", "u,2", "u,3", "u,4"]⟩]
      ⟨"id1", "img", ["u,1", "u,2", "u,3", "u,4"]⟩
      (by decide) (by decide)⟩
